import Mathlib

/-!
# Verification of the Content Normalization & Summarization Pipeline

Shallow embedding of the summarization service of this repository
(`src/server/services/openai.ts`, first version, and `src/unnamed/part_001`,
the HuggingFace-backed version) and proofs about the embedded definitions.

Strings are modelled as `List Char` (`Str`); JavaScript string methods used by
the source (`replace(/\s+/g, " ")`, `trim`, `split(" ")`, `split(/[.!?]/)`,
`join(sep)`, `includes`, `toLowerCase`) are embedded as executable functions
on `Str`.  Remote I/O (HuggingFace inference, puppeteer, YouTube Data API,
pdf-lib) is modelled by explicit oracle parameters; a JavaScript `throw`
crossing an `await` is modelled by `Except`-valued oracles, and `try`/`catch`
by matching on the oracle result.
-/

/-- Strings of the embedded program: JavaScript strings as lists of chars. -/
abbrev Str := List Char

/-- The character data of a Lean string literal, used to write `Str` constants. -/
def str (s : String) : Str := s.data

/-- Whitespace class of JavaScript's `\s` (and `String.prototype.trim`),
restricted to the ASCII whitespace characters: space, tab, line feed,
vertical tab, form feed, carriage return. -/
def isWs (c : Char) : Bool :=
  c == ' ' || c == '\t' || c == '\n' || c == '\x0B' || c == '\x0C' || c == '\r'

/-- `s.replace(/\s+/g, " ")`: every maximal run of whitespace characters is
replaced by a single space. -/
def collapseWs : Str → Str
  | [] => []
  | [c] => if isWs c then [' '] else [c]
  | c₁ :: c₂ :: cs =>
    if isWs c₁ then
      if isWs c₂ then collapseWs (c₂ :: cs)
      else ' ' :: collapseWs (c₂ :: cs)
    else c₁ :: collapseWs (c₂ :: cs)

/-- `s.trim()`: remove leading and trailing whitespace. -/
def trimStr (l : Str) : Str :=
  ((l.dropWhile isWs).reverse.dropWhile isWs).reverse

/-- `s.replace(/\s+/g, " ").trim()` — the whitespace normalizer used
throughout the source (`hfSummarize`, `readPdfContent`, web extraction). -/
def normalizeWs (l : Str) : Str := trimStr (collapseWs l)

/-- JavaScript `s.split(" ")`: split at every single space character, keeping
empty pieces; the empty string yields `[""]`. -/
def splitOnSpace : Str → List Str
  | [] => [[]]
  | c :: cs =>
    match splitOnSpace cs with
    | [] => [[c]]
    | w :: ws => if c = ' ' then [] :: w :: ws else (c :: w) :: ws

/-- JavaScript `parts.join(sep)`. -/
def joinWith (sep : Str) : List Str → Str
  | [] => []
  | [w] => w
  | w :: w' :: ws => w ++ sep ++ joinWith sep (w' :: ws)

/-- `parts.join(" ")`, the join used by the chunker. -/
def joinSpace : List Str → Str := joinWith [' ']

/-- Number of words of a text in the sense of the source:
`text.split(" ").length`. -/
def countWords (l : Str) : Nat := (splitOnSpace l).length

/-- Sentence delimiter class of the regex `/[.!?]/`. -/
def isDelim (c : Char) : Bool := c == '.' || c == '!' || c == '?'

/-- JavaScript `s.split(/[.!?]/)`: split at every occurrence of `.`, `!` or
`?`, keeping empty pieces. -/
def splitSentences : Str → List Str
  | [] => [[]]
  | c :: cs =>
    match splitSentences cs with
    | [] => [[c]]
    | w :: ws => if isDelim c then [] :: w :: ws else (c :: w) :: ws

/-- `text.split(/[.!?]/).map(s => s.trim()).filter(Boolean)` — the sentence
list used by both rule-based summarizers. -/
def sentencesOf (text : Str) : List Str :=
  ((splitSentences text).map trimStr).filter (fun s => s ≠ [])

/-- `ruleBasedTextSummarizer` of `src/server/services/openai.ts`: sentence
threshold 3, up to 4 representative sentences at indices
`[0, ⌊n/3⌋, ⌊2n/3⌋, n-1]`, joined with `". "` plus a trailing period. -/
def ruleBasedTextSummarizer (text : Str) : Str :=
  let sentences := sentencesOf text
  if sentences.length ≤ 3 then text
  else
    let summaryCount := min 4 sentences.length
    let summaryIndices :=
      ([0, sentences.length / 3, 2 * sentences.length / 3,
        sentences.length - 1]).take summaryCount
    joinWith ('.' :: ' ' :: []) (summaryIndices.map fun i => sentences.getD i [])
      ++ ['.']

namespace HFS

/-- `ruleBasedTextSummarizer` of `src/unnamed/part_001` (the HuggingFace
version of the service): sentence threshold 2, up to 3 representative
sentences at indices `[0, ⌊n/2⌋, n-1]`. -/
def ruleBasedTextSummarizer (text : Str) : Str :=
  let sentences := sentencesOf text
  if sentences.length ≤ 2 then text
  else
    let summaryCount := min 3 sentences.length
    let summaryIndices :=
      ([0, sentences.length / 2, sentences.length - 1]).take summaryCount
    joinWith ('.' :: ' ' :: []) (summaryIndices.map fun i => sentences.getD i [])
      ++ ['.']

end HFS

/-- Fuel-indexed body of the chunking loop of `hfSummarize`
(`for (let i = 0; i < words.length; i += chunkSize) { ... }`):
take `W` words, join with spaces, trim, keep if non-empty, continue with the
remaining words.  The fuel only serves Lean's termination checker; with
`fuel ≥ words.length` and `W ≥ 1` it never runs out (see `chunksGo_fuel`). -/
def chunksGo (W : Nat) : Nat → List Str → List Str
  | 0, _ => []
  | _, [] => []
  | fuel + 1, w :: ws =>
    let chunkText := trimStr (joinSpace ((w :: ws).take W))
    (if chunkText = [] then [] else [chunkText]) ++ chunksGo W fuel ((w :: ws).drop W)

/-- The chunker of `hfSummarize`: split a word list into chunks of at most
`W` words each (the source fixes `W = 500`).  For `W = 0` the source loop
would not terminate; all uses have `W ≥ 1`. -/
def chunksOf (W : Nat) (words : List Str) : List Str :=
  chunksGo W words.length words

/-- `text.toLowerCase()` (character-wise lowercasing). -/
def lowerStr (l : Str) : Str := l.map Char.toLower

/-- `pat` is a leading segment of `l`. -/
def leadsStr : Str → Str → Bool
  | [], _ => true
  | _ :: _, [] => false
  | p :: ps, c :: cs => p == c && leadsStr ps cs

/-- JavaScript `l.includes(pat)`: `pat` occurs contiguously somewhere in `l`. -/
def includesStr (l pat : Str) : Bool :=
  leadsStr pat l ||
    match l with
    | [] => false
    | _ :: cs => includesStr cs pat

/-- The static trusted-source allowlist of `detectFakeNews`
(`src/unnamed/part_001`; the list in `src/server/services/openai.ts` shares
the same initial segment through every source used in the proofs below). -/
def trustedSources : List Str :=
  [str "the hindu", str "times of india", str "indian express",
   str "hindustan times", str "ndtv", str "business standard", str "mint",
   str "economic times", str "deccan herald", str "the telegraph india",
   str "dna india", str "outlook india", str "livemint", str "news18",
   str "pti", str "dina thanthi", str "dinamalar", str "dinakaran",
   str "maalaimalar", str "puthiya thalaimurai", str "polimer news",
   str "sun tv", str "vikatan", str "ananda vikatan", str "malayala manorama",
   str "mathrubhumi", str "eenadu", str "sakshi", str "lokmat",
   str "gujarat samachar", str "rajasthan patrika", str "punjab kesari",
   str "bbc", str "reuters", str "ap news", str "associated press",
   str "the guardian", str "cnn", str "new york times", str "washington post",
   str "the economist", str "financial times", str "wall street journal",
   str "bloomberg", str "al jazeera", str "sky news", str "abc news",
   str "cbs news", str "nbc news", str "fox news", str "the times uk",
   str "the telegraph uk", str "nature", str "science magazine",
   str "scientific american", str "techcrunch", str "wired", str "the verge",
   str "ars technica", str "engadget", str "cnet", str "forbes",
   str "fortune", str "business insider", str "marketwatch",
   str "yahoo finance", str "cnbc", str "investopedia"]

/-- The `{isReal, confidence, reasoning}` object returned by
`detectFakeNews`. -/
structure Verdict where
  isReal : Bool
  confidence : ℚ
  reasoning : Str
deriving DecidableEq, Repr

/-- The allowlist loop of `detectFakeNews`: lowercase the input, scan the
trusted sources in order, and return the fixed high-confidence verdict for
the first source occurring as a substring (`none` when no source matches). -/
def detectFakeNewsAllowlist (text : Str) : Option Verdict :=
  let lowerText := lowerStr text
  (trustedSources.find? fun src => includesStr lowerText src).map
    fun src => ⟨true, mkRat 95 100, str "Trusted source: " ++ src⟩

/-- `detectFakeNews` of `src/unnamed/part_001`, with the remote
chat-completion classification path (everything after the allowlist loop,
including its defensive JSON parsing and its `catch`) abstracted as the
oracle `remote`, since the allowlist claims only concern whether that path
is reached.  The second component records whether the remote path was
invoked. -/
def detectFakeNews (remote : Verdict) (text : Str) : Verdict × Bool :=
  match detectFakeNewsAllowlist text with
  | some v => (v, false)
  | none => (remote, true)

/-- The `type` parameter of `summarizeText`:
`"text" | "link" | "youtube" | "pdf"`. -/
inductive SumType where
  | text | link | youtube | pdf
deriving DecidableEq, Repr

/-- The `input` parameter of `summarizeText`: `string | Buffer`. -/
inductive Input where
  | strIn (s : Str)
  | buf (b : List Nat)
deriving DecidableEq, Repr

/-- First capture of `input.match(/v=([^&]+)/)`: the leftmost occurrence of
`v=` followed by at least one character other than `&`, capturing the
maximal run of non-`&` characters. -/
def matchVQ : Str → Option Str
  | 'v' :: '=' :: c :: rest =>
    if c = '&' then matchVQ ('=' :: c :: rest)
    else some ((c :: rest).takeWhile fun d => d ≠ '&')
  | _ :: rest => matchVQ rest
  | [] => none

/-- First capture of `input.match(/youtu\.be\/([^?&]+)/)`: the leftmost
occurrence of `youtu.be/` followed by at least one character other than `?`
or `&`, capturing the maximal run of such characters. -/
def matchYB : Str → Option Str
  | [] => none
  | l@(_ :: rest) =>
    if leadsStr (str "youtu.be/") l then
      match (l.drop 9).takeWhile (fun d => d ≠ '?' ∧ d ≠ '&') with
      | [] => matchYB rest
      | c :: cs => some (c :: cs)
    else matchYB rest

/-- The remote collaborators of `src/server/services/openai.ts`, as oracles.
An oracle returning `Except.error ()` models the corresponding `await`
throwing (rejected promise / library exception); `Except.ok` models normal
completion.
* `base64`: `Buffer.from(s, "base64")` (total, lenient decoding).
* `pdfLoad`: `PDFDocument.load` plus the per-page `page.getContentStream?.()`
  reads — each page contributes `some s` (a content stream rendered to a
  string) or `none` (`getContentStream` absent, the optional call yields
  `undefined`).
* `web`: the whole puppeteer block (`launch`/`goto`/`evaluate`/`close`),
  URL in, `document.body.innerText` out.
* `yt`: the YouTube Data API lookup, video id in,
  `items[0].snippet` out as `none` (missing) or
  `some (title?, description?)`. -/
structure Oracles where
  base64 : Str → List Nat
  pdfLoad : List Nat → Except Unit (List (Option Str))
  web : Str → Except Unit Str
  yt : Str → Except Unit (Option (Option Str × Option Str))

/-- `typeof pdfInput === "string" ? Buffer.from(pdfInput, "base64") :
pdfInput` — the byte buffer handed to pdf-lib. -/
def inputBuffer (O : Oracles) : Input → List Nat
  | .strIn s => O.base64 s
  | .buf b => b

/-- `readPdfContent` of `src/server/services/openai.ts`:
decode base64 when given a string, load with pdf-lib, concatenate the pages'
content streams with `"\n"`; return the fixed messages on empty text or on
any exception (the internal `try`/`catch`). -/
def readPdfContent (O : Oracles) (pdfInput : Input) : Str :=
  match O.pdfLoad (inputBuffer O pdfInput) with
  | .error _ => str "Failed to read PDF file."
  | .ok pages =>
    let fullText :=
      (pages.map fun p => match p with
        | some s => s ++ ['\n']
        | none => []).flatten
    if trimStr fullText = [] then str "No readable text found in PDF."
    else normalizeWs fullText

/-- `summarizeText` of `src/server/services/openai.ts`.  The first component
is the returned string; the second records every argument passed to
`ruleBasedTextSummarizer` (used to settle whether summarization is applied
after a failed extraction).  The outer `try`/`catch` maps any uncaught
oracle exception to the fixed internal-error message. -/
def summarizeText (O : Oracles) (input : Input) (type : SumType) :
    Str × List Str :=
  match type, input with
  | .text, .strIn s => (ruleBasedTextSummarizer s, [s])
  | .pdf, _ =>
    let pdfText := readPdfContent O input
    if pdfText = [] ∨ trimStr pdfText = [] then
      (str "No readable text extracted from the PDF.", [])
    else (ruleBasedTextSummarizer pdfText, [pdfText])
  | .link, .strIn s =>
    match O.web s with
    | .error _ => (str "Summarization failed due to internal error.", [])
    | .ok textContent =>
      if textContent = [] then (str "Failed to extract text from webpage.", [])
      else (ruleBasedTextSummarizer textContent, [textContent])
  | .youtube, .strIn s =>
    match matchVQ s with
    | some videoId => summarizeYt O videoId
    | none =>
      match matchYB s with
      | some videoId => summarizeYt O videoId
      | none => (str "Invalid YouTube URL.", [])
  | _, _ => (str "Unsupported summarization type.", [])
where
  /-- The tail of the youtube branch, after the video id is extracted. -/
  summarizeYt (O : Oracles) (videoId : Str) : Str × List Str :=
    match O.yt videoId with
    | .error _ => (str "Summarization failed due to internal error.", [])
    | .ok none => (str "Video not found.", [])
    | .ok (some (title, description)) =>
      let textToSummarize :=
        title.getD [] ++ ('.' :: ' ' :: []) ++ description.getD []
      (ruleBasedTextSummarizer textToSummarize, [textToSummarize])

namespace HFS

/-- Outcome of one `axios.post` to the HuggingFace inference endpoint inside
`hfSummarize` (`src/unnamed/part_001`):
* `throws` — the `await` throws (network/auth/rate-limit failure);
* `summaryArr s` / `summaryObj s` — a response whose `summary_text` field is
  `s` (array-shaped `result[0].summary_text` or object-shaped
  `result.summary_text`);
* `errorResp e` — a response carrying an `error` field `e`;
* `unknown` — any other response shape. -/
inductive Resp where
  | throws
  | summaryArr (s : Str)
  | summaryObj (s : Str)
  | errorResp (e : Str)
  | unknown
deriving DecidableEq, Repr

/-- A summarization backend: chunk text in, response out. -/
abbrev Backend := Str → Resp

/-- What one non-throwing response contributes to `summaries`, following the
`if`/`else if` chain of the source: a falsy (empty) `summary_text` or `error`
field falls through to the next test, ending at the unknown-response
placeholder. -/
def chunkResult : Resp → Str
  | .summaryArr s =>
    if s = [] then str "(Chunk summarization failed: unknown response)" else s
  | .summaryObj s =>
    if s = [] then str "(Chunk summarization failed: unknown response)" else s
  | .errorResp e =>
    if e = [] then str "(Chunk summarization failed: unknown response)"
    else str "(Chunk summarization failed: " ++ e ++ str ")"
  | _ => str "(Chunk summarization failed: unknown response)"

/-- The `for (const chunk of chunks)` loop of `hfSummarize`: issue one
backend call per chunk in order.  Returns the chunk texts actually sent
(the call trace) and `some summaries` when no call threw, `none` when a call
threw (aborting the loop, to be caught by `hfSummarize`'s `catch`). -/
def runChunks (B : Backend) : List Str → List Str × Option (List Str)
  | [] => ([], some [])
  | c :: cs =>
    match B c with
    | .throws => ([c], none)
    | r =>
      let p := runChunks B cs
      (c :: p.1, p.2.map fun l => chunkResult r :: l)

/-- `hfSummarize` of `src/unnamed/part_001`, with its recursion made
explicit by fuel: `none` means the fuel ran out, i.e. the source recursion
is still running after `fuel` nested passes — the source has no recursion
bound of its own.  The first component of a `some` result is the returned
string, the second the trace of backend calls (chunk texts, in order,
including those of recursive passes). -/
def hfRun (B : Backend) : Nat → Str → Option (Str × List Str)
  | 0, _ => none
  | fuel + 1, text =>
    let cleaned := normalizeWs text
    if cleaned = [] then some (str "No text to summarize.", [])
    else
      let words := splitOnSpace cleaned
      let chunks := chunksOf 500 words
      if chunks = [] then some (str "Text too short to summarize.", [])
      else
        match runChunks B chunks with
        | (calls, none) => some (str "AI temporarily unavailable.", calls)
        | (calls, some summaries) =>
          if 1 < summaries.length then
            let merged := joinSpace summaries
            if countWords merged ≤ 500 then some (merged, calls)
            else (hfRun B fuel merged).map fun p => (p.1, calls ++ p.2)
          else
            let h := summaries.headD []
            some ((if h = [] then str "Summarization failed." else h), calls)

/-- The string `hfSummarize` returns (dropping the call trace);
`summarizeText` of `src/unnamed/part_001` returns exactly this on
`type = "text"` (`return await hfSummarize(input)`). -/
def hfSummarize (B : Backend) (fuel : Nat) (text : Str) : Option Str :=
  (hfRun B fuel text).map Prod.fst

end HFS

/-! ## Facts about `splitOnSpace` and `joinSpace` -/

theorem splitOnSpace_ne_nil (l : Str) : splitOnSpace l ≠ [] := by
  cases l with
  | nil => simp [splitOnSpace]
  | cons c cs =>
    simp only [splitOnSpace]
    rcases h : splitOnSpace cs with _ | ⟨w, ws⟩
    · simp
    · by_cases hc : c = ' ' <;> simp [hc]

theorem splitOnSpace_no_space (w : Str) (h : ' ' ∉ w) : splitOnSpace w = [w] := by
  induction w with
  | nil => rfl
  | cons c cs ih =>
    have hc : c ≠ ' ' := fun hc => h (hc ▸ List.mem_cons_self c cs)
    have hcs : ' ' ∉ cs := fun hm => h (List.mem_cons_of_mem c hm)
    simp [splitOnSpace, ih hcs, hc]

theorem splitOnSpace_append_space (w t : Str) (h : ' ' ∉ w) :
    splitOnSpace (w ++ ' ' :: t) = w :: splitOnSpace t := by
  induction w with
  | nil =>
    simp only [List.nil_append, splitOnSpace]
    rcases ht : splitOnSpace t with _ | ⟨v, vs⟩
    · exact absurd ht (splitOnSpace_ne_nil t)
    · simp
  | cons c cs ih =>
    have hc : c ≠ ' ' := fun hc => h (hc ▸ List.mem_cons_self c cs)
    have hcs : ' ' ∉ cs := fun hm => h (List.mem_cons_of_mem c hm)
    have hunf : splitOnSpace ((c :: cs) ++ ' ' :: t) =
        match splitOnSpace (cs ++ ' ' :: t) with
        | [] => [[c]]
        | v :: vs => if c = ' ' then [] :: v :: vs else (c :: v) :: vs := rfl
    rw [hunf, ih hcs]
    simp [hc]

theorem joinSpace_cons (w : Str) (ws : List Str) (h : ws ≠ []) :
    joinSpace (w :: ws) = w ++ ' ' :: joinSpace ws := by
  cases ws with
  | nil => exact absurd rfl h
  | cons w' ws' => simp [joinSpace, joinWith]

theorem splitOnSpace_joinSpace (ws : List Str) (hne : ws ≠ [])
    (h : ∀ w ∈ ws, ' ' ∉ w) : splitOnSpace (joinSpace ws) = ws := by
  induction ws with
  | nil => exact absurd rfl hne
  | cons w ws ih =>
    cases ws with
    | nil =>
      simpa [joinSpace, joinWith] using
        splitOnSpace_no_space w (h w (List.mem_cons_self w []))
    | cons w' ws' =>
      rw [joinSpace_cons w (w' :: ws') (by simp),
        splitOnSpace_append_space w _ (h w (List.mem_cons_self w _)),
        ih (by simp) fun v hv => h v (List.mem_cons_of_mem w hv)]

theorem joinSpace_append (ws₁ ws₂ : List Str) (h₁ : ws₁ ≠ []) (h₂ : ws₂ ≠ []) :
    joinSpace (ws₁ ++ ws₂) = joinSpace ws₁ ++ ' ' :: joinSpace ws₂ := by
  induction ws₁ with
  | nil => exact absurd rfl h₁
  | cons w ws ih =>
    cases ws with
    | nil => simpa using joinSpace_cons w ws₂ h₂
    | cons w' ws' =>
      rw [List.cons_append, joinSpace_cons w _ (by simp),
        joinSpace_cons w (w' :: ws') (by simp), ih (by simp)]
      simp

theorem mem_of_mem_splitOnSpace {c : Char} {p l : Str}
    (hp : p ∈ splitOnSpace l) (hc : c ∈ p) : c ∈ l := by
  induction l generalizing p with
  | nil =>
    simp only [splitOnSpace, List.mem_singleton] at hp
    subst hp; exact absurd hc (List.not_mem_nil c)
  | cons d ds ih =>
    rcases h : splitOnSpace ds with _ | ⟨w, ws⟩
    · exact absurd h (splitOnSpace_ne_nil ds)
    · have hunf : splitOnSpace (d :: ds) =
          if d = ' ' then [] :: w :: ws else (d :: w) :: ws := by
        simp only [splitOnSpace, h]
      rw [hunf] at hp
      by_cases hd : d = ' '
      · rw [if_pos hd] at hp
        rcases List.mem_cons.mp hp with hp | hp
        · subst hp; exact absurd hc (List.not_mem_nil c)
        · exact List.mem_cons_of_mem d (ih (h ▸ hp) hc)
      · rw [if_neg hd] at hp
        rcases List.mem_cons.mp hp with hp | hp
        · subst hp
          rcases List.mem_cons.mp hc with hcd | hcw
          · exact hcd ▸ List.mem_cons_self d ds
          · exact List.mem_cons_of_mem d
              (ih (h ▸ List.mem_cons_self w ws) hcw)
        · exact List.mem_cons_of_mem d
            (ih (h ▸ List.mem_cons_of_mem w hp) hc)

theorem no_space_of_mem_splitOnSpace {p l : Str} (hp : p ∈ splitOnSpace l) :
    ' ' ∉ p := by
  induction l generalizing p with
  | nil =>
    simp only [splitOnSpace, List.mem_singleton] at hp
    subst hp; exact List.not_mem_nil ' '
  | cons d ds ih =>
    rcases h : splitOnSpace ds with _ | ⟨w, ws⟩
    · exact absurd h (splitOnSpace_ne_nil ds)
    · have hunf : splitOnSpace (d :: ds) =
          if d = ' ' then [] :: w :: ws else (d :: w) :: ws := by
        simp only [splitOnSpace, h]
      rw [hunf] at hp
      by_cases hd : d = ' '
      · rw [if_pos hd] at hp
        rcases List.mem_cons.mp hp with hp | hp
        · subst hp; exact List.not_mem_nil ' '
        · exact ih (h ▸ hp)
      · rw [if_neg hd] at hp
        rcases List.mem_cons.mp hp with hp | hp
        · subst hp
          intro hsp
          rcases List.mem_cons.mp hsp with hcd | hcw
          · exact hd hcd.symm
          · exact ih (h ▸ List.mem_cons_self w ws) hcw
        · exact ih (h ▸ List.mem_cons_of_mem w hp)

/-! ## Invariants of the whitespace normalizer -/

theorem collapseWs_head? (c : Char) (cs : Str) :
    (collapseWs (c :: cs)).head? = some (if isWs c then ' ' else c) := by
  induction cs generalizing c with
  | nil =>
    by_cases h : isWs c <;> simp [collapseWs, h]
  | cons c₂ cs ih =>
    by_cases h : isWs c
    · by_cases h₂ : isWs c₂
      · simpa [collapseWs, h, h₂] using ih c₂
      · simp [collapseWs, h, h₂]
    · simp [collapseWs, h]

theorem collapseWs_mem_ws {l : Str} :
    ∀ c ∈ collapseWs l, isWs c = true → c = ' ' := by
  induction l with
  | nil => simp [collapseWs]
  | cons c₁ cs ih =>
    cases cs with
    | nil =>
      by_cases h : isWs c₁ <;> simp_all [collapseWs, h]
    | cons c₂ cs' =>
      by_cases h₁ : isWs c₁
      · by_cases h₂ : isWs c₂
        · simpa [collapseWs, h₁, h₂] using ih
        · intro c hc hws
          rw [collapseWs, if_pos h₁, if_neg h₂] at hc
          rcases List.mem_cons.mp hc with rfl | hc
          · rfl
          · exact ih c hc hws
      · intro c hc hws
        rw [collapseWs, if_neg h₁] at hc
        rcases List.mem_cons.mp hc with rfl | hc
        · exact absurd hws (by simp [h₁])
        · exact ih c hc hws

theorem collapseWs_chain' (l : Str) :
    (collapseWs l).Chain' (fun a b => ¬(isWs a = true ∧ isWs b = true)) := by
  induction l with
  | nil => simp [collapseWs]
  | cons c₁ cs ih =>
    cases cs with
    | nil =>
      by_cases h : isWs c₁ <;> simp [collapseWs, h]
    | cons c₂ cs' =>
      by_cases h₁ : isWs c₁
      · by_cases h₂ : isWs c₂
        · simpa [collapseWs, h₁, h₂] using ih
        · rw [collapseWs, if_pos h₁, if_neg h₂]
          refine List.chain'_cons'.mpr ⟨?_, ih⟩
          intro b hb
          rw [collapseWs_head? c₂ cs', if_neg h₂, Option.mem_def,
            Option.some.injEq] at hb
          subst hb
          simp [h₂]
      · rw [collapseWs, if_neg h₁]
        refine List.chain'_cons'.mpr ⟨?_, ih⟩
        intro b _
        simp [h₁]

theorem collapseWs_eq_self {l : Str}
    (hmem : ∀ c ∈ l, isWs c = true → c = ' ')
    (hch : l.Chain' (fun a b => ¬(isWs a = true ∧ isWs b = true))) :
    collapseWs l = l := by
  induction l with
  | nil => rfl
  | cons c₁ cs ih =>
    cases cs with
    | nil =>
      by_cases h : isWs c₁
      · simp [collapseWs, h, hmem c₁ (List.mem_cons_self c₁ []) h]
      · simp [collapseWs, h]
    | cons c₂ cs' =>
      have hch₂ := (List.chain'_cons.mp hch).1
      have hchtail := (List.chain'_cons.mp hch).2
      have hmemtail : ∀ c ∈ c₂ :: cs', isWs c = true → c = ' ' :=
        fun c hc => hmem c (List.mem_cons_of_mem c₁ hc)
      by_cases h₁ : isWs c₁
      · have h₂ : ¬ isWs c₂ = true := fun h₂ => hch₂ ⟨h₁, h₂⟩
        rw [collapseWs, if_pos h₁, if_neg h₂, ih hmemtail hchtail,
          hmem c₁ (List.mem_cons_self c₁ _) h₁]
      · rw [collapseWs, if_neg h₁, ih hmemtail hchtail]

theorem head?_dropWhile_ws {p : Char → Bool} :
    ∀ {l : Str} {a : Char}, (List.dropWhile p l).head? = some a → p a = false := by
  intro l
  induction l with
  | nil => intro a h; simp [List.dropWhile] at h
  | cons c cs ih =>
    intro a h
    rw [List.dropWhile_cons] at h
    by_cases hc : p c
    · rw [if_pos hc] at h; exact ih h
    · rw [if_neg hc] at h
      simp only [List.head?_cons, Option.some.injEq] at h
      subst h; exact Bool.eq_false_iff.mpr hc

theorem trimStr_isPrefix_dropWhile (l : Str) :
    List.IsPrefix (trimStr l) (List.dropWhile isWs l) := by
  unfold trimStr
  rw [show List.dropWhile isWs ((List.dropWhile isWs l).reverse)
      = ((List.dropWhile isWs ((List.dropWhile isWs l).reverse)).reverse).reverse
      from (List.reverse_reverse _).symm]
  exact List.reverse_suffix.mp
    (by simpa using List.dropWhile_suffix (l := (List.dropWhile isWs l).reverse) isWs)

theorem trimStr_sublist (l : Str) : List.Sublist (trimStr l) l :=
  ((trimStr_isPrefix_dropWhile l).sublist).trans (List.dropWhile_sublist isWs)

theorem trimStr_head? (l : Str) : ∀ a ∈ (trimStr l).head?, isWs a = false := by
  intro a ha
  rcases htrim : trimStr l with _ | ⟨x, xs⟩
  · rw [htrim] at ha; simp at ha
  · rw [htrim] at ha
    simp only [List.head?_cons, Option.mem_def, Option.some.injEq] at ha
    subst ha
    rcases (htrim ▸ trimStr_isPrefix_dropWhile l) with ⟨t, ht⟩
    exact head?_dropWhile_ws (l := l) (by rw [← ht]; rfl)

theorem trimStr_getLast? (l : Str) : ∀ a ∈ (trimStr l).getLast?, isWs a = false := by
  intro a ha
  rw [← List.head?_reverse] at ha
  unfold trimStr at ha
  rw [List.reverse_reverse] at ha
  exact head?_dropWhile_ws (Option.mem_def.mp ha)

theorem trimStr_eq_self {l : Str}
    (hh : ∀ a ∈ l.head?, isWs a = false)
    (hl : ∀ a ∈ l.getLast?, isWs a = false) : trimStr l = l := by
  have hdrop : List.dropWhile isWs l = l := by
    cases l with
    | nil => rfl
    | cons c cs =>
      rw [List.dropWhile_cons, if_neg]
      rw [Bool.not_eq_true]
      exact hh c (by simp)
  unfold trimStr
  rw [hdrop]
  have hdrop₂ : List.dropWhile isWs l.reverse = l.reverse := by
    rcases hrev : l.reverse with _ | ⟨c, cs⟩
    · rfl
    · rw [List.dropWhile_cons, if_neg]
      rw [Bool.not_eq_true]
      refine hl c ?_
      rw [← List.head?_reverse, hrev]; rfl
  rw [hdrop₂, List.reverse_reverse]

/-- The invariant of `NormalizedText` (spec §3): the only whitespace
character is a single space, no two consecutive whitespace characters, and
no leading or trailing whitespace. -/
def Normalized (l : Str) : Prop :=
  (∀ c ∈ l, isWs c = true → c = ' ') ∧
  l.Chain' (fun a b => ¬(isWs a = true ∧ isWs b = true)) ∧
  (∀ a ∈ l.head?, isWs a = false) ∧
  (∀ a ∈ l.getLast?, isWs a = false)

theorem normalized_normalizeWs (l : Str) : Normalized (normalizeWs l) := by
  refine ⟨?_, ?_, ?_, ?_⟩
  · intro c hc hws
    exact collapseWs_mem_ws c ((trimStr_sublist (collapseWs l)).mem hc) hws
  · exact List.Chain'.prefix
      (List.Chain'.suffix (collapseWs_chain' l) (List.dropWhile_suffix isWs))
      (trimStr_isPrefix_dropWhile (collapseWs l))
  · exact trimStr_head? (collapseWs l)
  · exact trimStr_getLast? (collapseWs l)

theorem normalizeWs_eq_self {l : Str} (h : Normalized l) : normalizeWs l = l := by
  unfold normalizeWs
  rw [collapseWs_eq_self h.1 h.2.1]
  exact trimStr_eq_self h.2.2.1 h.2.2.2

theorem normalizeWs_idem (l : Str) :
    normalizeWs (normalizeWs l) = normalizeWs l :=
  normalizeWs_eq_self (normalized_normalizeWs l)

theorem not_includes_double_space {l : Str}
    (hch : l.Chain' (fun a b => ¬(isWs a = true ∧ isWs b = true))) :
    includesStr l (' ' :: ' ' :: []) = false := by
  induction l with
  | nil => rfl
  | cons c cs ih =>
    rw [includesStr, Bool.or_eq_false_iff]
    refine ⟨?_, ih (List.chain'_cons'.mp hch).2⟩
    cases cs with
    | nil => simp [leadsStr]
    | cons c₂ cs' =>
      show (' ' == c && (' ' == c₂ && leadsStr [] cs')) = false
      by_cases hc : c = ' '
      · by_cases hc₂ : c₂ = ' '
        · exact absurd ⟨by simp [hc, isWs], by simp [hc₂, isWs]⟩
            (List.chain'_cons.mp hch).1
        · simp [Ne.symm hc₂]
      · simp [Ne.symm hc]

/-- **C9** (confirmed).  The whitespace normalizer
`s.replace(/\s+/g, " ").trim()` is idempotent, and its result contains no
two consecutive spaces (no occurrence of the substring `"  "`) and no
leading or trailing whitespace (trimming it again is a no-op). -/
theorem normalizeWs_idempotent_clean (s : Str) :
    normalizeWs (normalizeWs s) = normalizeWs s ∧
    includesStr (normalizeWs s) (' ' :: ' ' :: []) = false ∧
    trimStr (normalizeWs s) = normalizeWs s :=
  ⟨normalizeWs_idem s,
   not_includes_double_space (normalized_normalizeWs s).2.1,
   trimStr_eq_self (normalized_normalizeWs s).2.2.1
     (normalized_normalizeWs s).2.2.2⟩

/-! ## Words of a normalized text -/

/-- A word as produced by splitting a normalized text: non-empty and free of
whitespace. -/
def GoodWord (w : Str) : Prop := w ≠ [] ∧ ∀ c ∈ w, isWs c = false

theorem splitOnSpace_tail_ne_nil :
    ∀ l : Str, l.Chain' (fun a b => ¬(a = ' ' ∧ b = ' ')) →
      l.getLast? ≠ some ' ' →
      (∀ w ∈ (splitOnSpace l).tail, w ≠ []) ∧
      (l ≠ [] → l.head? ≠ some ' ' → ∀ w ∈ splitOnSpace l, w ≠ []) := by
  intro l
  induction l with
  | nil =>
    exact fun _ _ => ⟨by simp [splitOnSpace], fun hne => absurd rfl hne⟩
  | cons c cs ih =>
    intro hch hlast
    rcases h : splitOnSpace cs with _ | ⟨w, ws⟩
    · exact absurd h (splitOnSpace_ne_nil cs)
    · have hunf : splitOnSpace (c :: cs) =
          if c = ' ' then [] :: w :: ws else (c :: w) :: ws := by
        simp only [splitOnSpace, h]
      have hchtail := (List.chain'_cons'.mp hch).2
      by_cases hc : c = ' '
      · have hcs : cs ≠ [] := by
          rintro rfl
          exact hlast (by simp [hc])
        have hlasttail : cs.getLast? ≠ some ' ' := by
          rcases cs with _ | ⟨d, ds⟩
          · exact absurd rfl hcs
          · rwa [List.getLast?_cons_cons] at hlast
        have hheadtail : cs.head? ≠ some ' ' := by
          rcases cs with _ | ⟨d, ds⟩
          · exact absurd rfl hcs
          · intro hd
            simp only [List.head?_cons, Option.some.injEq] at hd
            exact (List.chain'_cons'.mp hch).1 d (by simp) ⟨hc, hd⟩
        have hall := (ih hchtail hlasttail).2 hcs hheadtail
        constructor
        · intro v hv
          rw [hunf, if_pos hc, List.tail_cons] at hv
          exact hall v (h ▸ hv)
        · intro _ hhead
          exact absurd (by simp [hc]) hhead
      · have hlasttail : cs.getLast? ≠ some ' ' := by
          rcases cs with _ | ⟨d, ds⟩
          · intro hj; simp at hj
          · rwa [List.getLast?_cons_cons] at hlast
        have htail := (ih hchtail hlasttail).1
        constructor
        · intro v hv
          rw [hunf, if_neg hc, List.tail_cons] at hv
          exact htail v (by rw [h, List.tail_cons]; exact hv)
        · intro _ _ v hv
          rw [hunf, if_neg hc] at hv
          rcases List.mem_cons.mp hv with rfl | hv
          · simp
          · exact htail v (by rw [h, List.tail_cons]; exact hv)

theorem normalized_words_good {l : Str} (h : Normalized l) (hne : l ≠ []) :
    ∀ w ∈ splitOnSpace l, GoodWord w := by
  intro w hw
  obtain ⟨hmem, hch, hhead, hlast⟩ := h
  have hch' : l.Chain' (fun a b => ¬(a = ' ' ∧ b = ' ')) := by
    refine hch.imp ?_
    intro a b hab ⟨ha, hb⟩
    exact hab ⟨by rw [ha]; rfl, by rw [hb]; rfl⟩
  have hlast' : l.getLast? ≠ some ' ' := by
    intro hl
    have := hlast ' ' (Option.mem_def.mpr hl)
    simp [isWs] at this
  have hhead' : l.head? ≠ some ' ' := by
    intro hl
    have := hhead ' ' (Option.mem_def.mpr hl)
    simp [isWs] at this
  refine ⟨(splitOnSpace_tail_ne_nil l hch' hlast').2 hne hhead' w hw, ?_⟩
  intro c hc
  by_contra hws
  rw [Bool.not_eq_false] at hws
  have hsp := hmem c (mem_of_mem_splitOnSpace hw hc) hws
  exact no_space_of_mem_splitOnSpace hw (hsp ▸ hc)

/-! ## The chunker -/

theorem chunksGo_congr (W : Nat) (hW : 1 ≤ W) :
    ∀ (n : Nat) (ws : List Str), ws.length ≤ n →
      ∀ f g, ws.length ≤ f → ws.length ≤ g →
        chunksGo W f ws = chunksGo W g ws := by
  intro n
  induction n with
  | zero =>
    intro ws hws f g _ _
    have : ws = [] := List.length_eq_zero.mp (Nat.le_zero.mp hws)
    subst this
    cases f <;> cases g <;> rfl
  | succ n ih =>
    intro ws hws f g hf hg
    cases ws with
    | nil => cases f <;> cases g <;> rfl
    | cons w ws' =>
      have hlen : (w :: ws').length = ws'.length + 1 := by simp
      obtain ⟨f', rfl⟩ : ∃ f', f = f' + 1 :=
        ⟨f - 1, by omega⟩
      obtain ⟨g', rfl⟩ : ∃ g', g = g' + 1 :=
        ⟨g - 1, by omega⟩
      show (let chunkText := trimStr (joinSpace ((w :: ws').take W))
        (if chunkText = [] then [] else [chunkText])
          ++ chunksGo W f' ((w :: ws').drop W)) =
        (let chunkText := trimStr (joinSpace ((w :: ws').take W))
        (if chunkText = [] then [] else [chunkText])
          ++ chunksGo W g' ((w :: ws').drop W))
      have hdrop : ((w :: ws').drop W).length = (w :: ws').length - W :=
        List.length_drop W (w :: ws')
      have := ih ((w :: ws').drop W) (by omega) f' g' (by omega) (by omega)
      simp only [this]

theorem chunksOf_cons (W : Nat) (hW : 1 ≤ W) (w : Str) (ws : List Str) :
    chunksOf W (w :: ws) =
      (let chunkText := trimStr (joinSpace ((w :: ws).take W))
       (if chunkText = [] then [] else [chunkText]))
        ++ chunksOf W ((w :: ws).drop W) := by
  show chunksGo W ((w :: ws).length) (w :: ws) = _
  have hlen : (w :: ws).length = ws.length + 1 := by simp
  rw [hlen]
  show (let chunkText := trimStr (joinSpace ((w :: ws).take W))
    (if chunkText = [] then [] else [chunkText]))
      ++ chunksGo W ws.length ((w :: ws).drop W) = _
  have hdrop : ((w :: ws).drop W).length = (w :: ws).length - W :=
    List.length_drop W (w :: ws)
  rw [chunksGo_congr W hW ((w :: ws).drop W).length ((w :: ws).drop W)
    le_rfl ws.length ((w :: ws).drop W).length (by omega) le_rfl]
  rfl

theorem joinSpace_ne_nil {ws : List Str} (h : ∀ w ∈ ws, w ≠ [])
    (hne : ws ≠ []) : joinSpace ws ≠ [] := by
  cases ws with
  | nil => exact absurd rfl hne
  | cons w ws' =>
    cases ws' with
    | nil => exact h w (by simp)
    | cons w' ws'' =>
      rw [joinSpace_cons w _ (by simp)]
      intro hcontra
      rcases List.append_eq_nil.mp hcontra with ⟨_, h₂⟩
      exact List.cons_ne_nil _ _ h₂

theorem joinSpace_head? {ws : List Str} (w : Str) (hw : w ≠ []) :
    (joinSpace (w :: ws)).head? = w.head? := by
  cases ws with
  | nil => rfl
  | cons w' ws' =>
    rw [joinSpace_cons w _ (by simp), List.head?_append_of_ne_nil _ hw]

theorem joinSpace_getLast? {ws : List Str} (h : ∀ w ∈ ws, w ≠ [])
    (hne : ws ≠ []) :
    (joinSpace ws).getLast? = (ws.getLast hne).getLast? := by
  induction ws with
  | nil => exact absurd rfl hne
  | cons w ws' ih =>
    cases ws' with
    | nil => rfl
    | cons w' ws'' =>
      rw [joinSpace_cons w _ (by simp)]
      have hjoin : joinSpace (w' :: ws'') ≠ [] :=
        joinSpace_ne_nil (fun v hv => h v (List.mem_cons_of_mem w hv)) (by simp)
      rcases hj : joinSpace (w' :: ws'') with _ | ⟨d, ds⟩
      · exact absurd hj hjoin
      · rw [List.getLast?_append_of_ne_nil w (by simp),
          List.getLast?_cons_cons, ← hj,
          ih (fun v hv => h v (List.mem_cons_of_mem w hv)) (by simp)]
        simp

theorem goodWord_no_space {w : Str} (h : GoodWord w) : ' ' ∉ w := by
  intro hsp
  have := h.2 ' ' hsp
  simp [isWs] at this

theorem trimStr_joinSpace_good {ws : List Str} (h : ∀ w ∈ ws, GoodWord w)
    (hne : ws ≠ []) :
    trimStr (joinSpace ws) = joinSpace ws ∧ joinSpace ws ≠ [] := by
  have hne' : ∀ w ∈ ws, w ≠ [] := fun w hw => (h w hw).1
  refine ⟨trimStr_eq_self ?_ ?_, joinSpace_ne_nil hne' hne⟩
  · intro a ha
    cases ws with
    | nil => exact absurd rfl hne
    | cons w ws' =>
      rw [joinSpace_head? w (hne' w (by simp))] at ha
      rcases w with _ | ⟨c, cs⟩
      · exact absurd rfl (hne' [] (by simp))
      · simp only [List.head?_cons, Option.mem_def, Option.some.injEq] at ha
        subst ha
        exact (h (c :: cs) (by simp)).2 c (by simp)
  · intro a ha
    rw [joinSpace_getLast? hne' hne] at ha
    have hlastmem : ws.getLast hne ∈ ws := List.getLast_mem hne
    have hgood := h _ hlastmem
    rcases hw : ws.getLast hne with _ | ⟨c, cs⟩
    · exact absurd hw hgood.1
    · rw [hw] at ha
      exact hgood.2 a (List.mem_of_mem_getLast? (hw ▸ ha))

theorem chunksOf_good_cons {W : Nat} (hW : 1 ≤ W) {ws : List Str}
    (h : ∀ w ∈ ws, GoodWord w) (hne : ws ≠ []) :
    chunksOf W ws = joinSpace (ws.take W) :: chunksOf W (ws.drop W) := by
  cases ws with
  | nil => exact absurd rfl hne
  | cons w ws' =>
    have htake : ∀ v ∈ (w :: ws').take W, GoodWord v :=
      fun v hv => h v (List.take_subset W (w :: ws') hv)
    have htakene : (w :: ws').take W ≠ [] := by
      intro hcontra
      have := congrArg List.length hcontra
      simp only [List.length_take, List.length_cons, List.length_nil] at this
      omega
    obtain ⟨htrim, hjoin⟩ := trimStr_joinSpace_good htake htakene
    rw [chunksOf_cons W hW w ws']
    simp [htrim, hjoin]

theorem chunks_spec_aux (W : Nat) (hW : 1 ≤ W) :
    ∀ (n : Nat) (ws : List Str), ws.length ≤ n → (∀ w ∈ ws, GoodWord w) →
      ((chunksOf W ws).map splitOnSpace).flatten = ws ∧
      ∀ c ∈ chunksOf W ws, (splitOnSpace c).length ≤ W := by
  intro n
  induction n with
  | zero =>
    intro ws hws _
    have : ws = [] := List.length_eq_zero.mp (Nat.le_zero.mp hws)
    subst this
    exact ⟨rfl, by simp [chunksOf, chunksGo]⟩
  | succ n ih =>
    intro ws hws hgood
    cases hws' : ws with
    | nil => exact ⟨rfl, by simp [chunksOf, chunksGo]⟩
    | cons w ws' =>
      subst hws'
      have hsplit : splitOnSpace (joinSpace ((w :: ws').take W)) =
          (w :: ws').take W := by
        refine splitOnSpace_joinSpace _ ?_ ?_
        · intro hcontra
          have := congrArg List.length hcontra
          simp only [List.length_take, List.length_cons, List.length_nil] at this
          omega
        · exact fun v hv =>
            goodWord_no_space (hgood v (List.take_subset W (w :: ws') hv))
      have hdropgood : ∀ v ∈ (w :: ws').drop W, GoodWord v :=
        fun v hv => hgood v (List.drop_subset W (w :: ws') hv)
      have hdroplen : ((w :: ws').drop W).length ≤ n := by
        have := List.length_drop W (w :: ws')
        simp only [List.length_cons] at this hws
        omega
      obtain ⟨ihflat, ihbound⟩ := ih ((w :: ws').drop W) hdroplen hdropgood
      rw [chunksOf_good_cons hW hgood (by simp)]
      constructor
      · simp only [List.map_cons, List.flatten_cons, hsplit, ihflat,
          List.take_append_drop]
      · intro c hc
        rcases List.mem_cons.mp hc with rfl | hc
        · rw [hsplit, List.length_take]
          exact min_le_left W _
        · exact ihbound c hc

/-- The chunk list of `hfSummarize` for a given text: the source computes
`text.split(" ")` and then runs the chunking loop over the word array. -/
theorem chunks_spec (W : Nat) (hW : 1 ≤ W) (ws : List Str)
    (hgood : ∀ w ∈ ws, GoodWord w) :
    ((chunksOf W ws).map splitOnSpace).flatten = ws ∧
    ∀ c ∈ chunksOf W ws, (splitOnSpace c).length ≤ W :=
  chunks_spec_aux W hW ws.length ws le_rfl hgood

/-- **C2** (confirmed).  For every normalized text and every word bound
`W ≥ 1`, the chunking loop of `hfSummarize` (run with chunk size `W`; the
source fixes `W = 500`) produces chunks whose words, concatenated in order,
reproduce the input's word sequence exactly once; every chunk contains at
most `W` words; and the empty text yields zero chunks. -/
theorem chunker_words_exact (t : Str) (W : Nat) (hW : 1 ≤ W)
    (hnorm : normalizeWs t = t) :
    (t ≠ [] →
      ((chunksOf W (splitOnSpace t)).map splitOnSpace).flatten =
        splitOnSpace t) ∧
    (∀ c ∈ chunksOf W (splitOnSpace t), (splitOnSpace c).length ≤ W) ∧
    (t = [] → chunksOf W (splitOnSpace t) = []) := by
  by_cases ht : t = []
  · subst ht
    have hempty : chunksOf W (splitOnSpace ([] : Str)) = [] := by
      show chunksGo W 1 [[]] = []
      have htake : List.take W [([] : Str)] = [[]] :=
        List.take_of_length_le (by simpa using hW)
      simp only [chunksGo, htake]
      simp [joinSpace, joinWith, trimStr]
    refine ⟨fun h => absurd rfl h, ?_, fun _ => hempty⟩
    rw [hempty]
    exact fun c hc => absurd hc (List.not_mem_nil c)
  · have hnormed : Normalized t := hnorm ▸ normalized_normalizeWs t
    have hgood := normalized_words_good hnormed ht
    obtain ⟨h1, h2⟩ := chunks_spec W hW (splitOnSpace t) hgood
    exact ⟨fun _ => h1, h2, fun h => absurd h ht⟩

/-- Witness for `chunker_words_exact` at the concrete normalized text
`"a b"` with `W = 1`. -/
theorem chunker_words_exact_witness :
    (1 ≤ 1 ∧ normalizeWs (str "a b") = str "a b") ∧
    ((str "a b" ≠ [] →
      ((chunksOf 1 (splitOnSpace (str "a b"))).map splitOnSpace).flatten =
        splitOnSpace (str "a b")) ∧
     (∀ c ∈ chunksOf 1 (splitOnSpace (str "a b")),
       (splitOnSpace c).length ≤ 1) ∧
     (str "a b" = [] → chunksOf 1 (splitOnSpace (str "a b")) = [])) :=
  ⟨⟨by decide, by decide⟩,
   chunker_words_exact (str "a b") 1 (by decide) (by decide)⟩

/-- **C7** (confirmed).  For every input text containing the substring
`"reuters"` after lowercasing, `detectFakeNews` returns a trusted verdict
(`isReal = true`) and never invokes the remote classification path,
whatever that path would return. -/
theorem detectFakeNews_reuters_trusted (text : Str) (remote : Verdict)
    (h : includesStr (lowerStr text) (str "reuters") = true) :
    (detectFakeNews remote text).1.isReal = true ∧
    (detectFakeNews remote text).2 = false := by
  have hmem : str "reuters" ∈ trustedSources := by decide
  have hfind : (trustedSources.find?
      fun src => includesStr (lowerStr text) src).isSome :=
    List.find?_isSome.mpr ⟨str "reuters", hmem, h⟩
  unfold detectFakeNews detectFakeNewsAllowlist
  rcases hf : trustedSources.find? fun src => includesStr (lowerStr text) src
    with _ | src
  · rw [hf] at hfind; simp at hfind
  · simp [hf]

/-- Witness for `detectFakeNews_reuters_trusted` at a concrete text
mentioning Reuters indirectly. -/
theorem detectFakeNews_reuters_trusted_witness :
    includesStr (lowerStr (str "as reported by Reuters today"))
      (str "reuters") = true ∧
    (detectFakeNews ⟨false, 0, []⟩
      (str "as reported by Reuters today")).1.isReal = true ∧
    (detectFakeNews ⟨false, 0, []⟩
      (str "as reported by Reuters today")).2 = false :=
  ⟨by decide,
   detectFakeNews_reuters_trusted (str "as reported by Reuters today")
     ⟨false, 0, []⟩ (by decide)⟩

/-- **C10** (confirmed).  The allowlist check is a plain substring scan over
the lowercased input, so a text that names no publisher — here one whose
only connection to a trusted source is that `"badminton"` contains `"mint"`
— gets a trusted verdict (`isReal = true`, confidence `0.95`) with a
reasoning string naming a trusted source, and the remote path is never
invoked.  The last conjunct checks that `"mint"` does not occur as a
standalone word of the lowercased input. -/
theorem detectFakeNews_badminton_false_trust :
    detectFakeNews ⟨false, 0, []⟩ (str "Badminton tournament results announced") =
      (⟨true, mkRat 95 100, str "Trusted source: mint"⟩, false) ∧
    (splitOnSpace (lowerStr (str "Badminton tournament results announced"))).all
      (fun w => w ≠ str "mint") = true := by
  constructor
  · decide
  · decide

/-! ## Sentences and the rule-based summarizer -/

theorem splitSentences_ne_nil (l : Str) : splitSentences l ≠ [] := by
  cases l with
  | nil => simp [splitSentences]
  | cons c cs =>
    simp only [splitSentences]
    rcases h : splitSentences cs with _ | ⟨w, ws⟩
    · simp
    · by_cases hc : isDelim c <;> simp [hc]

theorem splitSentences_no_delim {p l : Str} (hp : p ∈ splitSentences l) :
    ∀ c ∈ p, isDelim c = false := by
  induction l generalizing p with
  | nil =>
    simp only [splitSentences, List.mem_singleton] at hp
    subst hp; simp
  | cons d ds ih =>
    rcases h : splitSentences ds with _ | ⟨w, ws⟩
    · exact absurd h (splitSentences_ne_nil ds)
    · have hunf : splitSentences (d :: ds) =
          if isDelim d then [] :: w :: ws else (d :: w) :: ws := by
        simp only [splitSentences, h]
      rw [hunf] at hp
      by_cases hd : isDelim d
      · rw [if_pos hd] at hp
        rcases List.mem_cons.mp hp with hp | hp
        · subst hp; simp
        · exact ih (h ▸ hp)
      · rw [if_neg hd] at hp
        rcases List.mem_cons.mp hp with hp | hp
        · subst hp
          intro c hc
          rcases List.mem_cons.mp hc with rfl | hc
          · exact Bool.eq_false_iff.mpr hd
          · exact ih (h ▸ List.mem_cons_self w ws) c hc
        · exact ih (h ▸ List.mem_cons_of_mem w hp)

theorem splitSentences_append_dot (a r : Str)
    (h : ∀ c ∈ a, isDelim c = false) :
    splitSentences (a ++ '.' :: r) = a :: splitSentences r := by
  induction a with
  | nil =>
    simp only [List.nil_append, splitSentences]
    rcases hr : splitSentences r with _ | ⟨v, vs⟩
    · exact absurd hr (splitSentences_ne_nil r)
    · simp [isDelim]
  | cons c cs ih =>
    have hc : isDelim c = false := h c (List.mem_cons_self c cs)
    have hcs : ∀ d ∈ cs, isDelim d = false :=
      fun d hd => h d (List.mem_cons_of_mem c hd)
    have hunf : splitSentences ((c :: cs) ++ '.' :: r) =
        match splitSentences (cs ++ '.' :: r) with
        | [] => [[c]]
        | v :: vs => if isDelim c then [] :: v :: vs else (c :: v) :: vs := rfl
    rw [hunf, ih hcs]
    simp [hc]

theorem trimStr_idem (l : Str) : trimStr (trimStr l) = trimStr l :=
  trimStr_eq_self (trimStr_head? l) (trimStr_getLast? l)

theorem trimStr_cons_ws {c : Char} (hc : isWs c = true) (s : Str) :
    trimStr (c :: s) = trimStr s := by
  unfold trimStr
  rw [List.dropWhile_cons, if_pos hc]

theorem sentencesOf_append_dot {a : Str} (r : Str) (hne : a ≠ [])
    (htrim : trimStr a = a) (hdelim : ∀ c ∈ a, isDelim c = false) :
    sentencesOf (a ++ '.' :: r) = a :: sentencesOf r := by
  unfold sentencesOf
  rw [splitSentences_append_dot a r hdelim]
  simp only [List.map_cons, htrim]
  rw [List.filter_cons_of_pos (by simpa using hne)]

theorem sentencesOf_cons_space (r : Str) :
    sentencesOf (' ' :: r) = sentencesOf r := by
  unfold sentencesOf
  rcases h : splitSentences r with _ | ⟨w, ws⟩
  · exact absurd h (splitSentences_ne_nil r)
  · have hunf : splitSentences (' ' :: r) = (' ' :: w) :: ws := by
      show (match splitSentences r with
        | [] => [[' ']]
        | v :: vs => if isDelim ' ' then [] :: v :: vs
                     else (' ' :: v) :: vs) = (' ' :: w) :: ws
      rw [h]
      rfl
    rw [hunf, List.map_cons, List.map_cons,
      trimStr_cons_ws (by simp [isWs]) w]

theorem sentencesOf_joinDots : ∀ (ss : List Str),
    (∀ s ∈ ss, s ≠ [] ∧ trimStr s = s ∧ ∀ c ∈ s, isDelim c = false) →
    sentencesOf (joinWith ('.' :: ' ' :: []) ss ++ ['.']) = ss := by
  intro ss
  induction ss with
  | nil => intro _; decide
  | cons s ss' ih =>
    intro h
    obtain ⟨hne, htrim, hdelim⟩ := h s (List.mem_cons_self s ss')
    cases ss' with
    | nil =>
      show sentencesOf (s ++ '.' :: []) = [s]
      rw [sentencesOf_append_dot [] hne htrim hdelim,
        show sentencesOf [] = [] by decide]
    | cons s' ss'' =>
      have hrest : joinWith ('.' :: ' ' :: []) (s :: s' :: ss'') ++ ['.'] =
          s ++ '.' :: ' ' ::
            (joinWith ('.' :: ' ' :: []) (s' :: ss'') ++ ['.']) := by
        show (s ++ ('.' :: ' ' :: []) ++ joinWith ('.' :: ' ' :: []) (s' :: ss''))
            ++ ['.'] = _
        simp
      rw [hrest, sentencesOf_append_dot _ hne htrim hdelim,
        sentencesOf_cons_space,
        ih fun v hv => h v (List.mem_cons_of_mem s hv)]

theorem sentencesOf_good (t : Str) :
    ∀ s ∈ sentencesOf t, s ≠ [] ∧ trimStr s = s ∧ ∀ c ∈ s, isDelim c = false := by
  intro s hs
  obtain ⟨hs, hne⟩ := List.mem_filter.mp hs
  obtain ⟨p, hp, rfl⟩ := List.mem_map.mp hs
  refine ⟨by simpa using hne, trimStr_idem p, ?_⟩
  intro c hc
  exact splitSentences_no_delim hp c ((trimStr_sublist p).mem hc)

theorem getD_mem_of_lt : ∀ (l : List Str) (i : Nat), i < l.length →
    l.getD i [] ∈ l := by
  intro l
  induction l with
  | nil => intro i hi; simp at hi
  | cons w ws ih =>
    intro i hi
    cases i with
    | zero => simp [List.getD]
    | succ j =>
      have : j < ws.length := by simpa using hi
      simpa [List.getD] using Or.inr (by simpa [List.getD] using ih j this)

/-- **C3** (corrected).  `ruleBasedTextSummarizer`
(`src/server/services/openai.ts`, threshold 3) returns the input unchanged
at or below the threshold, and above the threshold returns a summary with
exactly `min n 4` (= 4) sentences.  The summary therefore has strictly
fewer sentences than the input only when the input has at least 5
sentences; at exactly 4 sentences the output sentence count equals the
input's (see `ruleBased_not_strictly_fewer`). -/
theorem ruleBased_sentence_counts (t : Str) :
    (sentencesOf (ruleBasedTextSummarizer t)).length =
      min (sentencesOf t).length 4 ∧
    ((sentencesOf t).length ≤ 3 → ruleBasedTextSummarizer t = t) := by
  by_cases h : (sentencesOf t).length ≤ 3
  · have hrb : ruleBasedTextSummarizer t = t := by
      unfold ruleBasedTextSummarizer
      simp only [if_pos h]
    rw [hrb]
    exact ⟨(Nat.min_eq_left (by omega)).symm, fun _ => rfl⟩
  · push_neg at h
    have hn : 3 < (sentencesOf t).length := h
    have hrb : ruleBasedTextSummarizer t =
        joinWith ('.' :: ' ' :: [])
          (([0, (sentencesOf t).length / 3, 2 * (sentencesOf t).length / 3,
             (sentencesOf t).length - 1]).map
            fun i => (sentencesOf t).getD i []) ++ ['.'] := by
      unfold ruleBasedTextSummarizer
      rw [if_neg (by omega)]
      have h4 : min 4 (sentencesOf t).length = 4 := by omega
      rw [h4]
      dsimp only
      rw [List.take_of_length_le (by simp)]
    have hsel : ∀ s ∈ (([0, (sentencesOf t).length / 3,
        2 * (sentencesOf t).length / 3, (sentencesOf t).length - 1]).map
          fun i => (sentencesOf t).getD i []),
        s ≠ [] ∧ trimStr s = s ∧ ∀ c ∈ s, isDelim c = false := by
      intro s hs
      obtain ⟨i, hi, rfl⟩ := List.mem_map.mp hs
      have hilt : i < (sentencesOf t).length := by
        simp only [List.mem_cons, List.not_mem_nil, or_false] at hi
        rcases hi with rfl | rfl | rfl | rfl <;> omega
      exact sentencesOf_good t _ (getD_mem_of_lt (sentencesOf t) i hilt)
    rw [hrb, sentencesOf_joinDots _ hsel]
    constructor
    · simp only [List.length_map, List.length_cons, List.length_nil]
      omega
    · intro hc
      exact absurd hc (by omega)

/-- Counterexample to **C3** as stated: the text `"A. B. C. D."` has 4
sentences, which exceeds the threshold 3, yet the rule-based summary also
has 4 sentences — not strictly fewer. -/
theorem ruleBased_not_strictly_fewer :
    3 < (sentencesOf (str "A. B. C. D.")).length ∧
    ¬((sentencesOf (ruleBasedTextSummarizer (str "A. B. C. D."))).length <
        (sentencesOf (str "A. B. C. D.")).length) := by
  constructor
  · decide
  · decide

/-- Witness for `ruleBased_sentence_counts` at the concrete two-sentence
text `"Hi there. Bye."`, discharging the at-or-below-threshold hypothesis. -/
theorem ruleBased_sentence_counts_witness :
    (sentencesOf (str "Hi there. Bye.")).length ≤ 3 ∧
    (sentencesOf (ruleBasedTextSummarizer (str "Hi there. Bye."))).length =
      min (sentencesOf (str "Hi there. Bye.")).length 4 ∧
    ruleBasedTextSummarizer (str "Hi there. Bye.") = str "Hi there. Bye." :=
  ⟨by decide, (ruleBased_sentence_counts (str "Hi there. Bye.")).1,
   (ruleBased_sentence_counts (str "Hi there. Bye.")).2 (by decide)⟩

/-! ## Totality of the orchestrator -/

theorem ruleBasedTextSummarizer_ne_nil {s : Str} (h : s ≠ []) :
    ruleBasedTextSummarizer s ≠ [] := by
  by_cases hc : (sentencesOf s).length ≤ 3
  · simpa [ruleBasedTextSummarizer, hc] using h
  · simp [ruleBasedTextSummarizer, hc]

/-- A concrete oracle assignment on which every remote collaborator fails
(every `await` of a remote call throws). -/
def stubOracles : Oracles :=
  ⟨fun _ => [], fun _ => Except.error (), fun _ => Except.error (),
   fun _ => Except.error ()⟩

/-- **C1** (corrected).  `summarizeText` of `src/server/services/openai.ts`
never throws (the model is total: oracle exceptions are mapped to fixed
strings) and, for every oracle behaviour, every kind and every input, its
result is a non-empty string — except in exactly one case: kind `"text"`
with the empty-string input, where the rule-based summarizer returns the
input itself, i.e. the empty string (see
`summarizeText_empty_on_empty_text`). -/
theorem summarizeText_total (O : Oracles) (inp : Input) (ty : SumType) :
    (summarizeText O inp ty).1 ≠ [] ∨
      (ty = SumType.text ∧ inp = Input.strIn []) := by
  cases ty with
  | text =>
    cases inp with
    | strIn s =>
      by_cases hs : s = []
      · exact Or.inr ⟨rfl, by rw [hs]⟩
      · exact Or.inl (ruleBasedTextSummarizer_ne_nil hs)
    | buf b =>
      exact Or.inl (show str "Unsupported summarization type." ≠ [] by decide)
  | pdf =>
    left
    show (let pdfText := readPdfContent O inp
      if pdfText = [] ∨ trimStr pdfText = [] then
        (str "No readable text extracted from the PDF.", ([] : List Str))
      else (ruleBasedTextSummarizer pdfText, [pdfText])).1 ≠ []
    by_cases hc : readPdfContent O inp = [] ∨ trimStr (readPdfContent O inp) = []
    · simp only [if_pos hc]
      decide
    · simp only [if_neg hc]
      exact ruleBasedTextSummarizer_ne_nil fun hnil => hc (Or.inl hnil)
  | link =>
    cases inp with
    | strIn s =>
      left
      show (match O.web s with
        | .error _ => (str "Summarization failed due to internal error.",
            ([] : List Str))
        | .ok textContent =>
          if textContent = [] then
            (str "Failed to extract text from webpage.", [])
          else (ruleBasedTextSummarizer textContent, [textContent])).1 ≠ []
      rcases O.web s with _ | textContent
      · exact show str "Summarization failed due to internal error." ≠ [] by
          decide
      · by_cases ht : textContent = []
        · simp only [if_pos ht]; decide
        · simp only [if_neg ht]
          exact ruleBasedTextSummarizer_ne_nil ht
    | buf b =>
      exact Or.inl (show str "Unsupported summarization type." ≠ [] by decide)
  | youtube =>
    cases inp with
    | strIn s =>
      left
      have hyt : ∀ videoId, (summarizeText.summarizeYt O videoId).1 ≠ [] := by
        intro videoId
        unfold summarizeText.summarizeYt
        rcases O.yt videoId with _ | snippet
        · exact show str "Summarization failed due to internal error." ≠ [] by
            decide
        · rcases snippet with _ | ⟨title, description⟩
          · exact show str "Video not found." ≠ [] by decide
          · refine ruleBasedTextSummarizer_ne_nil ?_
            simp
      show (match matchVQ s with
        | some videoId => summarizeText.summarizeYt O videoId
        | none =>
          match matchYB s with
          | some videoId => summarizeText.summarizeYt O videoId
          | none => (str "Invalid YouTube URL.", [])).1 ≠ []
      rcases matchVQ s with _ | vid
      · rcases matchYB s with _ | vid
        · exact show str "Invalid YouTube URL." ≠ [] by decide
        · exact hyt vid
      · exact hyt vid
    | buf b =>
      exact Or.inl (show str "Unsupported summarization type." ≠ [] by decide)

/-- Counterexample to **C1** as stated: on kind `"text"` with the empty
string — an input the claim explicitly covers — `summarizeText` returns the
empty string, which is neither a non-empty summary nor a user-facing
failure message. -/
theorem summarizeText_empty_on_empty_text :
    (summarizeText stubOracles (Input.strIn []) SumType.text).1 = [] := rfl

/-- **C8** (corrected).  When PDF extraction fails, `readPdfContent` catches
the exception and produces the fixed message `"Failed to read PDF file."` —
but `summarizeText` does not return it immediately: since the message is a
non-empty string, the emptiness guard passes and the message itself is fed
into `ruleBasedTextSummarizer` (second component: the summarizer call
trace).  Because the message has at most 3 sentences, the summarizer
returns it unchanged, so the final result still equals the fixed message. -/
theorem summarizeText_pdf_failure_flows_through_summarizer (O : Oracles)
    (inp : Input) (h : O.pdfLoad (inputBuffer O inp) = Except.error ()) :
    summarizeText O inp SumType.pdf =
      (str "Failed to read PDF file.", [str "Failed to read PDF file."]) := by
  have hread : readPdfContent O inp = str "Failed to read PDF file." := by
    unfold readPdfContent
    rw [h]
  show (let pdfText := readPdfContent O inp
    if pdfText = [] ∨ trimStr pdfText = [] then
      (str "No readable text extracted from the PDF.", ([] : List Str))
    else (ruleBasedTextSummarizer pdfText, [pdfText])) = _
  simp only [hread]
  rw [if_neg (by decide)]
  have hrb : ruleBasedTextSummarizer (str "Failed to read PDF file.") =
      str "Failed to read PDF file." := by decide
  rw [hrb]

/-- Witness for `summarizeText_pdf_failure_flows_through_summarizer` at the
all-failing oracles and an empty byte buffer. -/
theorem summarizeText_pdf_failure_flows_through_summarizer_witness :
    stubOracles.pdfLoad (inputBuffer stubOracles (Input.buf [])) =
      Except.error () ∧
    summarizeText stubOracles (Input.buf []) SumType.pdf =
      (str "Failed to read PDF file.", [str "Failed to read PDF file."]) :=
  ⟨rfl, summarizeText_pdf_failure_flows_through_summarizer stubOracles
    (Input.buf []) rfl⟩

/-- Counterexample to **C8** as stated: on a PDF whose bytes the backend
rejects, the summarizer-call trace is non-empty — the extraction-failure
message itself is passed to `ruleBasedTextSummarizer`, so summarization IS
applied after the failed extraction, contrary to the claim. -/
theorem summarizeText_pdf_failure_is_summarized :
    (summarizeText stubOracles (Input.buf [0]) SumType.pdf).2 =
      [str "Failed to read PDF file."] := by decide

/-! ## The HuggingFace strategy: fallback, recursion bound, call counts -/

/-- **C6** (code_bug).  With a remote backend that fails (throws) on every
call, `summarizeText` of `src/unnamed/part_001` on plain text
`"A. B. C. D. E."` (`return await hfSummarize(input)`) returns the fixed
failure message `"AI temporarily unavailable."` — it never falls back to
the extractive `ruleBasedTextSummarizer`, which the same file defines under
the header `RULE-BASED FALLBACK` but never calls, and which would have
produced the non-empty summary `"A. C. E."`. -/
theorem hfSummarize_no_extractive_fallback :
    HFS.hfSummarize (fun _ => HFS.Resp.throws) 1 (str "A. B. C. D. E.") =
      some (str "AI temporarily unavailable.") ∧
    HFS.ruleBasedTextSummarizer (str "A. B. C. D. E.") = str "A. C. E." ∧
    HFS.hfSummarize (fun _ => HFS.Resp.throws) 1 (str "A. B. C. D. E.") ≠
      some (HFS.ruleBasedTextSummarizer (str "A. B. C. D. E.")) := by
  refine ⟨by decide, by decide, by decide⟩

theorem chain'_of_all_not_ws {l : Str} (h : ∀ c ∈ l, isWs c = false) :
    l.Chain' (fun a b => ¬(isWs a = true ∧ isWs b = true)) := by
  induction l with
  | nil => simp
  | cons c cs ih =>
    refine List.chain'_cons'.mpr ⟨?_, ih fun d hd => h d (List.mem_cons_of_mem c hd)⟩
    intro b _ hab
    rw [h c (List.mem_cons_self c cs)] at hab
    exact Bool.false_ne_true hab.1

theorem mem_joinSpace {c : Char} : ∀ {ws : List Str},
    c ∈ joinSpace ws → (∃ w ∈ ws, c ∈ w) ∨ c = ' ' := by
  intro ws
  induction ws with
  | nil => intro h; exact absurd h (List.not_mem_nil c)
  | cons w ws' ih =>
    intro h
    cases ws' with
    | nil =>
      exact Or.inl ⟨w, List.mem_cons_self w [], h⟩
    | cons w' ws'' =>
      rw [joinSpace_cons w _ (by simp)] at h
      rcases List.mem_append.mp h with h | h
      · exact Or.inl ⟨w, List.mem_cons_self w _, h⟩
      · rcases List.mem_cons.mp h with rfl | h
        · exact Or.inr rfl
        · rcases ih h with ⟨v, hv, hc⟩ | h
          · exact Or.inl ⟨v, List.mem_cons_of_mem w hv, hc⟩
          · exact Or.inr h

theorem normalized_joinSpace {ws : List Str} (h : ∀ w ∈ ws, GoodWord w) :
    Normalized (joinSpace ws) := by
  induction ws with
  | nil => exact ⟨by simp [joinSpace, joinWith], by simp [joinSpace, joinWith],
      by simp [joinSpace, joinWith], by simp [joinSpace, joinWith]⟩
  | cons w ws' ih =>
    have hw := h w (List.mem_cons_self w ws')
    have htail : ∀ v ∈ ws', GoodWord v := fun v hv => h v (List.mem_cons_of_mem w hv)
    cases ws' with
    | nil =>
      refine ⟨?_, ?_, ?_, ?_⟩
      · intro c hc hws
        exact absurd hws (by rw [hw.2 c hc]; exact Bool.false_ne_true)
      · exact chain'_of_all_not_ws hw.2
      · intro a ha
        exact hw.2 a (List.mem_of_mem_head? ha)
      · intro a ha
        exact hw.2 a (List.mem_of_mem_getLast? ha)
    | cons w' ws'' =>
      obtain ⟨ihmem, ihch, ihhead, ihlast⟩ := ih htail
      have hjoin_ne : joinSpace (w' :: ws'') ≠ [] :=
        joinSpace_ne_nil (fun v hv => (htail v hv).1) (by simp)
      rw [joinSpace_cons w _ (by simp)]
      refine ⟨?_, ?_, ?_, ?_⟩
      · intro c hc hws
        rcases List.mem_append.mp hc with hc | hc
        · exact absurd hws (by rw [hw.2 c hc]; exact Bool.false_ne_true)
        · rcases List.mem_cons.mp hc with rfl | hc
          · rfl
          · exact ihmem c hc hws
      · refine (List.chain'_append).mpr ⟨chain'_of_all_not_ws hw.2, ?_, ?_⟩
        · refine List.chain'_cons'.mpr ⟨?_, ihch⟩
          intro b hb hab
          rw [joinSpace_head? w' ((htail w' (by simp)).1)] at hb
          have hbw : b ∈ w' := List.mem_of_mem_head? hb
          rw [(htail w' (by simp)).2 b hbw] at hab
          exact Bool.false_ne_true hab.2
        · intro x hx y hy hxy
          rw [(hw.2 x (List.mem_of_mem_getLast? hx))] at hxy
          exact Bool.false_ne_true hxy.1
      · intro a ha
        rw [List.head?_append_of_ne_nil _ hw.1] at ha
        exact hw.2 a (List.mem_of_mem_head? ha)
      · intro a ha
        rw [List.getLast?_append_of_ne_nil w (by simp)] at ha
        rcases hj : joinSpace (w' :: ws'') with _ | ⟨d, ds⟩
        · exact absurd hj hjoin_ne
        · rw [hj, List.getLast?_cons_cons, ← hj] at ha
          exact ihlast a ha

/-- The `k`-word normalized text made of `k` copies of the word `"a"`. -/
def J (k : Nat) : Str := joinSpace (List.replicate k ['a'])

theorem repl_good (k : Nat) : ∀ w ∈ List.replicate k (['a'] : Str), GoodWord w := by
  intro w hw
  rw [List.eq_of_mem_replicate hw]
  exact ⟨by simp, by decide⟩

theorem J_ne_nil {k : Nat} (hk : 1 ≤ k) : J k ≠ [] :=
  joinSpace_ne_nil (fun w hw => (repl_good k w hw).1)
    (by simp [List.replicate]; omega)

theorem splitOnSpace_J {k : Nat} (hk : 1 ≤ k) :
    splitOnSpace (J k) = List.replicate k ['a'] :=
  splitOnSpace_joinSpace _ (by simp [List.replicate]; omega)
    fun w hw => goodWord_no_space (repl_good k w hw)

theorem countWords_J {k : Nat} (hk : 1 ≤ k) : countWords (J k) = k := by
  unfold countWords
  rw [splitOnSpace_J hk, List.length_replicate]

theorem normalizeWs_J (k : Nat) : normalizeWs (J k) = J k :=
  normalizeWs_eq_self (normalized_joinSpace (repl_good k))

theorem J_append {m n : Nat} (hm : 1 ≤ m) (hn : 1 ≤ n) :
    J (m + n) = J m ++ ' ' :: J n := by
  unfold J
  rw [List.replicate_add,
    joinSpace_append _ _ (by simp [List.replicate]; omega)
      (by simp [List.replicate]; omega)]

theorem chunksOf_replicate_step {k : Nat} (hk : 500 < k) :
    chunksOf 500 (List.replicate k (['a'] : Str)) =
      J 500 :: chunksOf 500 (List.replicate (k - 500) (['a'] : Str)) := by
  rw [chunksOf_good_cons (by norm_num) (repl_good k)
    (by simp [List.replicate]; omega)]
  rw [List.take_replicate, List.drop_replicate]
  have hmin : min 500 k = 500 := by omega
  rw [hmin]
  rfl

theorem chunksOf_replicate_last {k : Nat} (hk1 : 1 ≤ k) (hk2 : k ≤ 500) :
    chunksOf 500 (List.replicate k (['a'] : Str)) = [J k] := by
  rw [chunksOf_good_cons (by norm_num) (repl_good k)
    (by simp [List.replicate]; omega)]
  rw [List.take_replicate, List.drop_replicate]
  have hmin : min 500 k = k := by omega
  have hz : k - 500 = 0 := by omega
  rw [hmin, hz]
  rfl

namespace HFS

theorem hfRun_step (B : Backend) (fuel : Nat) (t : Str)
    (hnorm : normalizeWs t = t) (hne : t ≠ [])
    (chunks calls summaries : List Str)
    (hchunks : chunksOf 500 (splitOnSpace t) = chunks)
    (hcne : chunks ≠ [])
    (hrun : runChunks B chunks = (calls, some summaries))
    (hlen : 1 < summaries.length)
    (hbig : ¬ countWords (joinSpace summaries) ≤ 500) :
    hfRun B (fuel + 1) t =
      (hfRun B fuel (joinSpace summaries)).map
        fun p => (p.1, calls ++ p.2) := by
  simp only [hfRun, hnorm, hchunks, hrun]
  rw [if_neg hne, if_neg hcne, if_pos hlen, if_neg hbig]

theorem hfRun_done (B : Backend) (fuel : Nat) (t : Str)
    (hnorm : normalizeWs t = t) (hne : t ≠ [])
    (chunks calls summaries : List Str)
    (hchunks : chunksOf 500 (splitOnSpace t) = chunks)
    (hcne : chunks ≠ [])
    (hrun : runChunks B chunks = (calls, some summaries))
    (hlen : 1 < summaries.length)
    (hsmall : countWords (joinSpace summaries) ≤ 500) :
    hfRun B (fuel + 1) t = some (joinSpace summaries, calls) := by
  simp only [hfRun, hnorm, hchunks, hrun]
  rw [if_neg hne, if_neg hcne, if_pos hlen, if_pos hsmall]

end HFS

/-- A backend that answers every chunk call with the same 300-word summary —
a summary no shorter than the 500-word ceiling allows the merge of two such
summaries to be. -/
def Bconst : HFS.Backend := fun _ => HFS.Resp.summaryArr (J 300)

theorem hfRun_Bconst_none : ∀ fuel, HFS.hfRun Bconst fuel (J 600) = none := by
  have hcr : HFS.chunkResult (HFS.Resp.summaryArr (J 300)) = J 300 := by
    show (if J 300 = [] then str "(Chunk summarization failed: unknown response)"
      else J 300) = J 300
    rw [if_neg (J_ne_nil (by norm_num))]
  have hchunks : chunksOf 500 (splitOnSpace (J 600)) = [J 500, J 100] := by
    rw [splitOnSpace_J (by norm_num), chunksOf_replicate_step (by norm_num),
      show (600 : Nat) - 500 = 100 by norm_num,
      chunksOf_replicate_last (by norm_num) (by norm_num)]
  have hrun : HFS.runChunks Bconst [J 500, J 100] =
      ([J 500, J 100], some [J 300, J 300]) := by
    simp [HFS.runChunks, Bconst, hcr]
  have hjoin : joinSpace [J 300, J 300] = J 600 := by
    rw [joinSpace_cons _ _ (by simp)]
    show J 300 ++ ' ' :: J 300 = J 600
    rw [← J_append (by norm_num) (by norm_num)]
  have hbig : ¬ countWords (joinSpace [J 300, J 300]) ≤ 500 := by
    rw [hjoin, countWords_J (by norm_num)]
    norm_num
  intro fuel
  induction fuel with
  | zero => rfl
  | succ n ih =>
    rw [HFS.hfRun_step Bconst n (J 600) (normalizeWs_J 600)
      (J_ne_nil (by norm_num)) [J 500, J 100] [J 500, J 100] [J 300, J 300]
      hchunks (by simp) hrun (by norm_num) hbig, hjoin, ih]
    rfl

/-- **C5** (code_bug).  The recursive re-summarization in `hfSummarize` has
no maximum recursion depth: with the backend `Bconst`, which returns a
300-word summary for every chunk (no shorter than its input requires), the
600-word input `J 600` is split into two chunks whose summaries merge back
to a 600-word text, and the source recurses on it forever — in the fuel
model, the run completes for no fuel bound, and no truncation or extractive
fallback is ever reached. -/
theorem hfSummarize_unbounded_recursion :
    ∀ fuel, HFS.hfSummarize Bconst fuel (J 600) = none := by
  intro fuel
  unfold HFS.hfSummarize
  rw [hfRun_Bconst_none fuel]
  rfl

theorem chunkResult_summaryArr {s : Str} (h : s ≠ []) :
    HFS.chunkResult (HFS.Resp.summaryArr s) = s := by
  show (if s = [] then str "(Chunk summarization failed: unknown response)"
    else s) = s
  rw [if_neg h]

/-- A backend answering every chunk with a 300-word summary, except
400-word chunks, which get a 50-word summary (word counts as the source
measures them, by `split(" ").length`). -/
def B400 : HFS.Backend := fun c =>
  HFS.Resp.summaryArr (if countWords c = 400 then J 50 else J 300)

theorem B400_eval {k : Nat} (hk : 1 ≤ k) :
    B400 (J k) = HFS.Resp.summaryArr (if k = 400 then J 50 else J 300) := by
  unfold B400
  rw [countWords_J hk]

theorem joinSpace_J_pair {m n : Nat} (hm : 1 ≤ m) (hn : 1 ≤ n) :
    joinSpace [J m, J n] = J (m + n) := by
  rw [joinSpace_cons _ _ (by simp)]
  show J m ++ ' ' :: J n = J (m + n)
  rw [← J_append hm hn]

theorem hfRun_B400_eval :
    HFS.hfRun B400 3 (J 1200) =
      some (J 350, [J 500, J 500, J 200, J 500, J 400]) := by
  have hcr300 := chunkResult_summaryArr (J_ne_nil (show 1 ≤ 300 by norm_num))
  have hcr50 := chunkResult_summaryArr (J_ne_nil (show 1 ≤ 50 by norm_num))
  have hB500 : B400 (J 500) = HFS.Resp.summaryArr (J 300) := by
    rw [B400_eval (by norm_num)]
    norm_num
  have hB200 : B400 (J 200) = HFS.Resp.summaryArr (J 300) := by
    rw [B400_eval (by norm_num)]
    norm_num
  have hB400 : B400 (J 400) = HFS.Resp.summaryArr (J 50) := by
    rw [B400_eval (by norm_num)]
    norm_num
  have hchunks12 : chunksOf 500 (splitOnSpace (J 1200)) =
      [J 500, J 500, J 200] := by
    rw [splitOnSpace_J (by norm_num), chunksOf_replicate_step (by norm_num),
      show (1200 : Nat) - 500 = 700 by norm_num,
      chunksOf_replicate_step (by norm_num),
      show (700 : Nat) - 500 = 200 by norm_num,
      chunksOf_replicate_last (by norm_num) (by norm_num)]
  have hchunks9 : chunksOf 500 (splitOnSpace (J 900)) = [J 500, J 400] := by
    rw [splitOnSpace_J (by norm_num), chunksOf_replicate_step (by norm_num),
      show (900 : Nat) - 500 = 400 by norm_num,
      chunksOf_replicate_last (by norm_num) (by norm_num)]
  have hrun12 : HFS.runChunks B400 [J 500, J 500, J 200] =
      ([J 500, J 500, J 200], some [J 300, J 300, J 300]) := by
    simp [HFS.runChunks, hB500, hB200, hcr300]
  have hrun9 : HFS.runChunks B400 [J 500, J 400] =
      ([J 500, J 400], some [J 300, J 50]) := by
    simp [HFS.runChunks, hB500, hB400, hcr300, hcr50]
  have hjoin3 : joinSpace [J 300, J 300, J 300] = J 900 := by
    rw [joinSpace_cons _ _ (by simp), joinSpace_J_pair (by norm_num) (by norm_num),
      show (300 : Nat) + 300 = 600 by norm_num]
    show J 300 ++ ' ' :: J 600 = J 900
    rw [← J_append (by norm_num) (by norm_num)]
  have hjoin2 : joinSpace [J 300, J 50] = J 350 := by
    rw [joinSpace_J_pair (by norm_num) (by norm_num)]
  have hbig : ¬ countWords (joinSpace [J 300, J 300, J 300]) ≤ 500 := by
    rw [hjoin3, countWords_J (by norm_num)]
    norm_num
  have hsmall : countWords (joinSpace [J 300, J 50]) ≤ 500 := by
    rw [hjoin2, countWords_J (by norm_num)]
    norm_num
  have hlevel2 : HFS.hfRun B400 2 (J 900) = some (J 350, [J 500, J 400]) := by
    rw [show (2 : Nat) = 1 + 1 from rfl,
      HFS.hfRun_done B400 1 (J 900) (normalizeWs_J 900)
        (J_ne_nil (by norm_num)) [J 500, J 400] [J 500, J 400] [J 300, J 50]
        hchunks9 (by simp) hrun9 (by norm_num) hsmall, hjoin2]
  rw [show (3 : Nat) = 2 + 1 from rfl,
    HFS.hfRun_step B400 2 (J 1200) (normalizeWs_J 1200)
      (J_ne_nil (by norm_num)) [J 500, J 500, J 200] [J 500, J 500, J 200]
      [J 300, J 300, J 300] hchunks12 (by simp) hrun12 (by norm_num) hbig,
    hjoin3, hlevel2]
  rfl

/-- **C4** (corrected).  For a 1,200-word normalized text under backend
`B400`, `hfSummarize` issues exactly 3 chunk-level calls in document order
(on the 500-, 500- and 200-word chunks); the three 300-word chunk summaries
merge to a 900-word text exceeding the 500-word ceiling, and the merged
text is then fed back through the same chunk-and-call procedure, issuing
one further backend call per chunk of the merged text — here two calls (on
its 500- and 400-word chunks), not one call on the merged text itself. -/
theorem hf_chunk_merge_recurse_trace :
    countWords (J 1200) = 1200 ∧
    normalizeWs (J 1200) = J 1200 ∧
    countWords (joinSpace [J 300, J 300, J 300]) = 900 ∧
    HFS.hfRun B400 3 (J 1200) =
      some (J 350, [J 500, J 500, J 200, J 500, J 400]) := by
  refine ⟨countWords_J (by norm_num), normalizeWs_J 1200, ?_, hfRun_B400_eval⟩
  rw [joinSpace_cons _ _ (by simp),
    joinSpace_J_pair (by norm_num) (by norm_num),
    show (300 : Nat) + 300 = 600 by norm_num]
  show countWords (J 300 ++ ' ' :: J 600) = 900
  rw [← J_append (by norm_num) (by norm_num)]
  exact countWords_J (by norm_num)

/-- Counterexample to **C4** as stated: after the 3 chunk-level calls and a
merge exceeding 500 words, the run issues 2 more backend calls (5 in
total), not exactly 1 more. -/
theorem hf_merge_recursion_not_one_more_call :
    (HFS.hfRun B400 3 (J 1200)).map (fun p => p.2.length) = some 5 ∧
    (HFS.hfRun B400 3 (J 1200)).map (fun p => p.2.length) ≠ some 4 := by
  rw [hfRun_B400_eval]
  exact ⟨rfl, by simp⟩
